import Mathlib

/-!
Verification development for the o11y Go client (observeinc/o11y).

Shallow embeddings of the functions in `client.go`, `json.go` (which also
holds the clock code) and `types.go`, together with theorems settling the
frozen claims about them.  Bytes are modelled as `Nat` (the newline byte
`'\n'` is 10), Go `int` values reaching the API surface as `Int`, slices
as `List Nat`.
-/

namespace O11y

/-! ### Constants (client.go) -/

def SizeMargin : Nat := 128

def MinMaxSize : Nat := 4096

def MaxMaxSize : Nat := 4096 * 1000

def MaxNumRetries : Int := 10

def MaxSleepRetries : Nat := 6

def SleepQuantaMs : Nat := 250

/-! ### cutPoint (json.go)

```go
func cutPoint(data []byte, maxSize int) ([]byte, []byte) {
    // don't work on ludicrously small arguments
    if maxSize < 32 || data == nil {
        return data, nil
    }
    ld := len(data)
    if ld > maxSize {
        for i := maxSize; i > maxSize/2; i-- {
            if data[i] == '\n' {
                return data[:i+1], data[i+1:]
            }
        }
        for i := maxSize; i < ld; i++ {
            if data[i] == '\n' {
                return data[:i+1], data[i+1:]
            }
        }
    }
    // don't know what to do -- there's no place to cut!
    return data, nil
}
```

The backward loop visits `i = maxSize, maxSize-1, ..., maxSize/2 + 1`; the
forward loop visits `i = maxSize, ..., ld-1`.  We realise each loop as a
`find?` over the corresponding index list.  A `nil` Go slice is modelled as
the empty list (an empty non-nil slice takes the same path through the code:
with `maxSize ≥ 32` we have `ld = 0 ≤ maxSize`, so it falls through to the
final `return data, nil` with identical result). -/

/-- `data[i] == '\n'` with the out-of-range default 0 (all accesses the Go
code performs are in range, so the default is never what is compared). -/
def isNL (data : List Nat) (i : Nat) : Bool := data.getD i 0 == 10

/-- Index list of the backward loop: `maxSize, maxSize-1, ..., maxSize/2+1`. -/
def backIdx (m : Nat) : List Nat := (List.range' (m / 2 + 1) (m - m / 2)).reverse

/-- Index list of the forward loop: `maxSize, ..., ld-1`. -/
def fwdIdx (m ld : Nat) : List Nat := List.range' m (ld - m)

/-- The body of `cutPoint` past the sanity guard, with `m = maxSize.toNat`. -/
def cutPointAux (data : List Nat) (m : Nat) : List Nat × List Nat :=
  if data.length > m then
    match (backIdx m).find? (isNL data) with
    | some i => (data.take (i + 1), data.drop (i + 1))
    | none =>
      match (fwdIdx m data.length).find? (isNL data) with
      | some i => (data.take (i + 1), data.drop (i + 1))
      | none => (data, [])
  else (data, [])

def cutPoint (data : List Nat) (maxSize : Int) : List Nat × List Nat :=
  if maxSize < 32 ∨ data = [] then (data, [])
  else cutPointAux data maxSize.toNat

/-- The search window of `cutPoint` for a given `maxSize.toNat = m`:
backward part `(m/2, m]` and forward part `[m, len)`; every index the code
examines lies below `len` whenever it is examined at all, so the bound
`i < data.length` is part of the window. -/
def inWindow (data : List Nat) (m i : Nat) : Prop :=
  (m / 2 < i ∧ i ≤ m ∧ i < data.length) ∨ (m ≤ i ∧ i < data.length)

instance (data : List Nat) (m i : Nat) : Decidable (inWindow data m i) := by
  unfold inWindow; infer_instance

/-! ### Errors (types.go) -/

/-- The three `O11yError` constants of `types.go`. -/
inductive O11yError where
  | sendFailed
  | clientClosed
  | clientBacklogged
deriving DecidableEq, Repr

def O11yError.message : O11yError → String
  | .sendFailed => "o11y client send failed"
  | .clientClosed => "o11y client closed"
  | .clientBacklogged => "o11y client backlogged"

/-! ### Transmitter: sendPayload (client.go, lines 342-385)

One HTTP attempt is abstracted by its observable outcome:
  * `netErr`   — `c.httpClient.Do` returned a non-nil error;
  * `badBody`  — the response body did not decode (`jsonDecode` failed,
                 e.g. HTML from a proxy);
  * `jsonBody fields` — the body decoded into `CheckResponse`; `fields`
                 lists the boolean members of the decoded JSON object
                 (`CheckResponse` has the single field `Ok bool`, tagged
                 `json:"ok"`, so only the `"ok"` member matters).
`http.NewRequest` is modelled as always succeeding: the URL was already
parsed successfully by `fixPath` at construction time.

The Go loop harbours a variable-shadowing slip: `req, err :=` inside the
loop body declares a fresh `err`, so `resp, err = c.httpClient.Do(req)` and
`err = jsonDecode(...)` assign the loop-local variable, and the final
`return err` returns the outer `err`, which is never assigned and is
therefore nil.  The embedding reproduces this: on exhaustion the result is
`none` (success), whatever the attempts observed. -/

inductive HttpResult where
  | netErr
  | badBody
  | jsonBody (fields : List (String × Bool))
deriving DecidableEq, Repr

/-- An attempt outcome that makes the loop `continue` to the next retry. -/
def HttpResult.retryable : HttpResult → Bool
  | .netErr => true
  | .badBody => true
  | .jsonBody _ => false

/-- `json.Unmarshal` of a decoded JSON object into `CheckResponse{Ok bool}`
(types.go, lines 18-20): the `ok` member if present, otherwise the Go zero
value `false`. -/
def checkResponseOk (fields : List (String × Bool)) : Bool :=
  match fields.lookup "ok" with
  | some b => b
  | none => false

/-- Backoff before retry attempt `i ≥ 1`:
`SleepQuantaMs * time.Millisecond * time.Duration(1<<w)` with
`w = min i MaxSleepRetries`, in milliseconds. -/
def retrySleepMs (i : Nat) : Nat := SleepQuantaMs * 2 ^ (min i MaxSleepRetries)

/-- Observable trace of one `sendPayload` call: the backoff sleeps in
order (milliseconds), the number of HTTP requests issued, and the returned
error (`none` = nil). -/
structure SendTrace where
  sleepsMs : List Nat
  requests : Nat
  result : Option O11yError
deriving DecidableEq, Repr

/-- The retry loop of `sendPayload`.  `i` is the loop index, `rem` the
remaining iterations (`i + rem = nRetries` throughout), `sleeps` the sleeps
performed so far.  `responses i` is the outcome of the HTTP attempt at loop
index `i`. -/
def sendPayloadAux (responses : Nat → HttpResult) : Nat → Nat → List Nat → SendTrace
  | i, 0, sleeps =>
    -- loop exhausted: `return err` reads the outer, never-assigned `err`,
    -- which is nil
    { sleepsMs := sleeps, requests := i, result := none }
  | i, rem + 1, sleeps =>
    let s := if 0 < i then sleeps ++ [retrySleepMs i] else sleeps
    match responses i with
    | .netErr => sendPayloadAux responses (i + 1) rem s
    | .badBody => sendPayloadAux responses (i + 1) rem s
    | .jsonBody fields =>
      if checkResponseOk fields then
        { sleepsMs := s, requests := i + 1, result := none }
      else
        { sleepsMs := s, requests := i + 1, result := some .sendFailed }

/-- `sendPayload` for a given transport behaviour and retry budget. -/
def sendPayload (responses : Nat → HttpResult) (nRetries : Nat) : SendTrace :=
  sendPayloadAux responses 0 nRetries []

/-- `WithNumRetries` (client.go, lines 153-163): clamp above to
`MaxNumRetries`, then below to 1. -/
def withNumRetries (n : Int) : Int :=
  let n1 := if n > MaxNumRetries then MaxNumRetries else n
  if n1 < 1 then 1 else n1

/-! ### Client handle: SendJSON (client.go, lines 211-233)

The producer-facing state: the verbosity threshold, the `allowWrite` flag
(cleared by `preClose`), the `busy` backlog-warning flag, and the `boop`
channel modelled as its buffered contents plus its capacity.  The
non-blocking `select { case c.boop <- data: ... default: ... }` succeeds
exactly when the buffer is not full. -/

structure ClientState where
  verbosity : Int
  allowWrite : Bool
  busy : Bool
  queue : List Nat
  queueCap : Nat
deriving DecidableEq, Repr

def sendJSON (c : ClientState) (v : Int) (data : Nat) : ClientState × Option O11yError :=
  if v > c.verbosity then (c, none)
  else if ¬ c.allowWrite then (c, some .clientClosed)
  else if c.queue.length < c.queueCap then
    ({ c with queue := c.queue ++ [data], busy := false }, none)
  else if ¬ c.busy then
    -- first full hit since the flag cleared: log the backlog warning
    ({ c with busy := true }, some .clientBacklogged)
  else (c, some .clientBacklogged)

/-- A sequence of `SendJSON` calls at one verbosity, returning the final
state and the per-call results. -/
def sendAll (c : ClientState) (v : Int) : List Nat → ClientState × List (Option O11yError)
  | [] => (c, [])
  | d :: ds =>
    let r := sendJSON c v d
    let rest := sendAll r.1 v ds
    (rest.1, r.2 :: rest.2)

/-! ### Dispatcher: writeOne / warnError (client.go, lines 298-323)

An enqueued value is abstracted by its dynamic type name (what
`fmt.Sprintf("%T", ...)` yields) and whether `json.Encoder.Encode`
succeeds on its envelope (`Encode` writes nothing to the buffer when
marshalling fails).  The buffer is viewed here as the list of envelope
records appended to it; the size-triggered flush in `writeOne` concerns
the byte-level view treated by `flushPieces` below and is independent of
the warning/substitution logic. -/

structure EventVal where
  typename : String
  marshalable : Bool
deriving DecidableEq, Repr

inductive BufRecord where
  | data (typename : String)
  | badType (typename : String)
deriving DecidableEq, Repr

structure DispState where
  warnedTypes : List String
  records : List BufRecord
  warnings : List String
deriving DecidableEq, Repr

/-- `warnError` (client.go, lines 313-323): on the first failure of a type,
record the type, log one warning, replace the envelope's data with
`BadType{Typename: t}` and encode that; on later failures of the same type,
do nothing at all. -/
def warnError (c : DispState) (t : String) : DispState :=
  if t ∈ c.warnedTypes then c
  else
    { warnedTypes := c.warnedTypes ++ [t]
      records := c.records ++ [.badType t]
      warnings := c.warnings ++ [t] }

/-- `writeOne` (client.go, lines 298-311), restricted to its
encode-or-warn behaviour. -/
def writeOne (c : DispState) (e : EventVal) : DispState :=
  if e.marshalable then { c with records := c.records ++ [.data e.typename] }
  else warnError c e.typename

def writeAll (c : DispState) (es : List EventVal) : DispState :=
  es.foldl writeOne c

/-! ### Dispatcher: flushBuffer (client.go, lines 325-340)

```go
func (c *client) flushBuffer() {
    data := c.buffer.Bytes()
    defer c.buffer.Reset()
    for len(data) > 0 {
        var rest []byte
        if len(data) > c.maxSize {
            data, rest = cutPoint(data, c.maxSize)
        }
        if err := c.sendPayload(data); err != nil { ... log ... }
        data = rest
    }
}
```

`flushPieces` returns, in order, the payloads handed to `sendPayload`. -/

theorem cutPointAux_snd_length_lt (data : List Nat) (m : Nat) (h : data ≠ []) :
    (cutPointAux data m).2.length < data.length := by
  have hpos : 0 < data.length := List.length_pos.mpr h
  unfold cutPointAux
  split
  · split
    · simp only [List.length_drop]
      exact Nat.sub_lt hpos (Nat.succ_pos _)
    · split
      · simp only [List.length_drop]
        exact Nat.sub_lt hpos (Nat.succ_pos _)
      · simpa using hpos
  · simpa using hpos

theorem cutPoint_snd_length_lt (data : List Nat) (maxSize : Int) (h : data ≠ []) :
    (cutPoint data maxSize).2.length < data.length := by
  have hpos : 0 < data.length := List.length_pos.mpr h
  unfold cutPoint
  split
  · simpa using hpos
  · exact cutPointAux_snd_length_lt data maxSize.toNat h

def flushPieces (maxSize : Int) (data : List Nat) : List (List Nat) :=
  if h : data = [] then []
  else if (data.length : Int) > maxSize then
    (cutPoint data maxSize).1 :: flushPieces maxSize (cutPoint data maxSize).2
  else [data]
termination_by data.length
decreasing_by exact cutPoint_snd_length_lt data maxSize h

/-! ### FakeClock (json.go clock section, lines 85-183)

Simulated time and durations are nanosecond counts (`Nat`; the claims
concern `Sleep(d)` with `d ≥ 0`).  A `fakeTicker` carries its period `d`,
its next due time `next`, and an identifier standing for its channel.
`NewTicker` panics on a zero interval, so every live ticker has a positive
period; the positivity is carried as a field so that `Sleep` is total.

A delivered (or best-effort dropped) tick is recorded in a trace as the
pair (ticker id, delivery time); the delivery time is the ticker's due
time, which `Sleep` has just made the current time. -/

structure FTicker where
  id : Nat
  period : Nat
  next : Nat
  period_pos : 0 < period

structure FakeState where
  now : Nat
  tickers : List FTicker

/-- The scan
`for _, t := range f.tickers { if earliest == nil || t.next.Before(earliest.next) { earliest = t } }`:
returns the index and value of the first ticker with minimal `next`
(replacement only on strictly earlier `next`). -/
def earliestIdx : List FTicker → Option (Nat × FTicker)
  | [] => none
  | t :: ts =>
    match earliestIdx ts with
    | none => some (0, t)
    | some (j, u) => if u.next < t.next then some (j + 1, u) else some (0, t)

/-- Number of times a ticker still fires before the sleep target. -/
def tickWeight (sleepUntil : Nat) (t : FTicker) : Nat :=
  if t.next ≤ sleepUntil then (sleepUntil - t.next) / t.period + 1 else 0

def sleepMeasure (sleepUntil : Nat) (ts : List FTicker) : Nat :=
  (ts.map (tickWeight sleepUntil)).sum

theorem earliestIdx_eq_none (ts : List FTicker) (h : earliestIdx ts = none) :
    ts = [] := by
  cases ts with
  | nil => rfl
  | cons t ts =>
    cases hrec : earliestIdx ts with
    | none => simp [earliestIdx, hrec] at h
    | some ju =>
      simp only [earliestIdx, hrec] at h
      split at h <;> simp at h

theorem earliestIdx_getElem (ts : List FTicker) (j : Nat) (u : FTicker)
    (h : earliestIdx ts = some (j, u)) : ts[j]? = some u := by
  induction ts generalizing j u with
  | nil => simp [earliestIdx] at h
  | cons t ts ih =>
    cases hrec : earliestIdx ts with
    | none =>
      simp only [earliestIdx, hrec, Option.some.injEq, Prod.mk.injEq] at h
      obtain ⟨rfl, rfl⟩ := h
      simp
    | some ju =>
      obtain ⟨j', u'⟩ := ju
      simp only [earliestIdx, hrec] at h
      split at h
      · simp only [Option.some.injEq, Prod.mk.injEq] at h
        obtain ⟨rfl, rfl⟩ := h
        simpa using ih j' u' hrec
      · simp only [Option.some.injEq, Prod.mk.injEq] at h
        obtain ⟨rfl, rfl⟩ := h
        simp

theorem earliestIdx_min (ts : List FTicker) (j : Nat) (u : FTicker)
    (h : earliestIdx ts = some (j, u)) : ∀ t ∈ ts, u.next ≤ t.next := by
  induction ts generalizing j u with
  | nil => simp [earliestIdx] at h
  | cons t ts ih =>
    cases hrec : earliestIdx ts with
    | none =>
      have : ts = [] := earliestIdx_eq_none ts hrec
      subst this
      simp only [earliestIdx, Option.some.injEq, Prod.mk.injEq] at h
      obtain ⟨rfl, rfl⟩ := h
      simp
    | some ju =>
      obtain ⟨j', u'⟩ := ju
      simp only [earliestIdx, hrec] at h
      intro x hx
      split at h
      · rename_i hlt
        simp only [Option.some.injEq, Prod.mk.injEq] at h
        obtain ⟨rfl, rfl⟩ := h
        rcases List.mem_cons.mp hx with hx | hx
        · exact hx ▸ Nat.le_of_lt hlt
        · exact ih j' u' hrec x hx
      · rename_i hlt
        simp only [Option.some.injEq, Prod.mk.injEq] at h
        obtain ⟨rfl, rfl⟩ := h
        rcases List.mem_cons.mp hx with hx | hx
        · exact hx ▸ Nat.le_refl _
        · exact Nat.le_trans (Nat.le_of_not_lt hlt) (ih j' u' hrec x hx)

theorem sum_map_set_lt (f : FTicker → Nat) (ts : List FTicker) (j : Nat)
    (u v : FTicker) (hj : ts[j]? = some u) (hlt : f v < f u) :
    ((ts.set j v).map f).sum < (ts.map f).sum := by
  induction ts generalizing j with
  | nil => simp at hj
  | cons t ts ih =>
    cases j with
    | zero =>
      simp only [List.getElem?_cons_zero, Option.some.injEq] at hj
      subst hj
      simp only [List.set_cons_zero, List.map_cons, List.sum_cons]
      exact Nat.add_lt_add_right hlt _
    | succ j =>
      simp only [List.getElem?_cons_succ] at hj
      simp only [List.set_cons_succ, List.map_cons, List.sum_cons]
      exact Nat.add_lt_add_left (ih j hj) _

theorem tickWeight_fire_lt (sleepUntil : Nat) (u : FTicker)
    (hle : u.next ≤ sleepUntil) :
    tickWeight sleepUntil { u with next := u.next + u.period } <
      tickWeight sleepUntil u := by
  unfold tickWeight
  dsimp only
  rw [if_pos hle]
  split
  · rename_i hle2
    have hA : u.period ≤ sleepUntil - u.next := by omega
    have heq : sleepUntil - (u.next + u.period) = sleepUntil - u.next - u.period := by
      omega
    rw [heq]
    have hdiv : (sleepUntil - u.next - u.period) / u.period + 1
        = (sleepUntil - u.next) / u.period := by
      rw [← Nat.add_div_right (sleepUntil - u.next - u.period) u.period_pos,
        Nat.sub_add_cancel hA]
    omega
  · exact Nat.succ_pos _

theorem sleepMeasure_fire_lt (sleepUntil : Nat) (ts : List FTicker)
    (j : Nat) (u : FTicker) (h : earliestIdx ts = some (j, u))
    (hle : u.next ≤ sleepUntil) :
    sleepMeasure sleepUntil (ts.set j { u with next := u.next + u.period }) <
      sleepMeasure sleepUntil ts :=
  sum_map_set_lt (tickWeight sleepUntil) ts j u _
    (earliestIdx_getElem ts j u h) (tickWeight_fire_lt sleepUntil u hle)

/-- The loop body of `FakeClock.Sleep` (json.go clock section,
lines 111-137). -/
def fakeSleepAux (sleepUntil : Nat) (st : FakeState)
    (trace : List (Nat × Nat)) : FakeState × List (Nat × Nat) :=
  match h : earliestIdx st.tickers with
  | none => ({ st with now := sleepUntil }, trace)
  | some ju =>
    if hle : ju.2.next ≤ sleepUntil then
      fakeSleepAux sleepUntil
        { now := ju.2.next
          tickers := st.tickers.set ju.1 { ju.2 with next := ju.2.next + ju.2.period } }
        (trace ++ [(ju.2.id, ju.2.next)])
    else ({ st with now := sleepUntil }, trace)
termination_by sleepMeasure sleepUntil st.tickers
decreasing_by exact sleepMeasure_fire_lt sleepUntil st.tickers ju.1 ju.2 h hle

/-- `FakeClock.Sleep(d)`: returns the final state and the trace of ticks
delivered, in delivery order. -/
def fakeSleep (st : FakeState) (d : Nat) : FakeState × List (Nat × Nat) :=
  fakeSleepAux (st.now + d) st []

/-! ## Lemmas about the transmitter -/

theorem sendPayloadAux_all_retryable (responses : Nat → HttpResult) :
    ∀ (rem i : Nat) (sleeps : List Nat), 1 ≤ i →
      (∀ j, i ≤ j → j < i + rem → (responses j).retryable = true) →
      sendPayloadAux responses i rem sleeps =
        { sleepsMs := sleeps ++ (List.range' i rem).map retrySleepMs,
          requests := i + rem, result := none } := by
  intro rem
  induction rem with
  | zero => intro i sleeps _ _; simp [sendPayloadAux]
  | succ rem ih =>
    intro i sleeps hi hall
    have hri : (responses i).retryable = true := hall i (Nat.le_refl _) (by omega)
    have hstep : ∀ s', s' = sleeps ++ [retrySleepMs i] →
        sendPayloadAux responses (i + 1) rem s' =
          { sleepsMs := sleeps ++ (List.range' i (rem + 1)).map retrySleepMs,
            requests := i + (rem + 1), result := none } := by
      intro s' hs'
      rw [ih (i + 1) s' (by omega) (fun j hj1 hj2 => hall j (by omega) (by omega)), hs']
      rw [List.range'_succ, List.map_cons]
      simp [List.append_assoc]
      omega
    cases hresp : responses i with
    | netErr =>
      simp only [sendPayloadAux, hresp, if_pos (by omega : 0 < i)]
      exact hstep _ rfl
    | badBody =>
      simp only [sendPayloadAux, hresp, if_pos (by omega : 0 < i)]
      exact hstep _ rfl
    | jsonBody fields => rw [hresp] at hri; simp [HttpResult.retryable] at hri

theorem sendPayload_all_retryable (responses : Nat → HttpResult) (n : Nat)
    (hall : ∀ j, j < n → (responses j).retryable = true) :
    sendPayload responses n =
      { sleepsMs := (List.range' 1 (n - 1)).map retrySleepMs,
        requests := n, result := none } := by
  cases n with
  | zero => simp [sendPayload, sendPayloadAux]
  | succ m =>
    have hr0 : (responses 0).retryable = true := hall 0 (Nat.succ_pos m)
    have hrest :
        sendPayloadAux responses 1 m [] =
          { sleepsMs := [] ++ (List.range' 1 m).map retrySleepMs,
            requests := 1 + m, result := none } :=
      sendPayloadAux_all_retryable responses m 1 [] (Nat.le_refl 1)
        (fun j hj1 hj2 => hall j (by omega))
    cases hresp : responses 0 with
    | netErr =>
      unfold sendPayload
      simp only [sendPayloadAux, hresp]
      rw [if_neg (by omega : ¬ (0:Nat) < 0), hrest]
      simp only [List.nil_append, Nat.succ_sub_one]
      congr 1
      omega
    | badBody =>
      unfold sendPayload
      simp only [sendPayloadAux, hresp]
      rw [if_neg (by omega : ¬ (0:Nat) < 0), hrest]
      simp only [List.nil_append, Nat.succ_sub_one]
      congr 1
      omega
    | jsonBody fields => rw [hresp] at hr0; simp [HttpResult.retryable] at hr0

/-- Stepping over a retryable prefix up to a decoded response: the decoded
acknowledgement alone decides the outcome. -/
theorem sendPayloadAux_first_decoded (responses : Nat → HttpResult)
    (fields : List (String × Bool)) :
    ∀ (rem i k : Nat) (sleeps : List Nat), i ≤ k → k < i + rem →
      (∀ j, i ≤ j → j < k → (responses j).retryable = true) →
      responses k = .jsonBody fields →
      (sendPayloadAux responses i rem sleeps).result =
        if checkResponseOk fields then none else some .sendFailed := by
  intro rem
  induction rem with
  | zero => intro i k sleeps hik hk _ _; omega
  | succ rem ih =>
    intro i k sleeps hik hk hprev hresp
    rcases Nat.eq_or_lt_of_le hik with rfl | hik'
    · simp only [sendPayloadAux, hresp]
      split <;> simp
    · have hri : (responses i).retryable = true := hprev i (Nat.le_refl _) hik'
      cases hrespi : responses i with
      | netErr =>
        simp only [sendPayloadAux, hrespi]
        exact ih (i + 1) k _ hik' (by omega) (fun j hj1 hj2 => hprev j (by omega) hj2) hresp
      | badBody =>
        simp only [sendPayloadAux, hrespi]
        exact ih (i + 1) k _ hik' (by omega) (fun j hj1 hj2 => hprev j (by omega) hj2) hresp
      | jsonBody f => rw [hrespi] at hri; simp [HttpResult.retryable] at hri

/-! ## Claims about the transmitter (C1, C3, C5, C7) -/

/-- C1: the claim says that when every attempt of `sendPayload` fails at the
network level or with an undecodable body, the last observed (non-nil) error
is returned.  The code instead returns nil: the `req, err :=` short
declaration inside the loop shadows the outer `err`, so the final
`return err` yields the never-assigned outer variable.  At the failing input
(default retry budget 5, every attempt a network error) the call performs
all 5 requests, sleeps the 4 backoffs, and then reports success. -/
theorem sendPayload_exhausted_returns_nil :
    sendPayload (fun _ => HttpResult.netErr) 5 =
      { sleepsMs := [500, 1000, 2000, 4000], requests := 5, result := none } := by
  decide

/-- C5: a first-attempt response decoding with acknowledgement `false`
(`{"ok":false}`) makes `sendPayload` return `ErrSendFailed` at once: exactly
one HTTP request, no backoff sleep, whatever the configured retry count. -/
theorem sendPayload_ok_false_terminal (responses : Nat → HttpResult) (n : Nat)
    (hn : 1 ≤ n) (h0 : responses 0 = .jsonBody [("ok", false)]) :
    sendPayload responses n =
      { sleepsMs := [], requests := 1, result := some .sendFailed } := by
  obtain ⟨m, rfl⟩ : ∃ m, n = m + 1 := ⟨n - 1, by omega⟩
  simp [sendPayload, sendPayloadAux, h0, checkResponseOk]

theorem sendPayload_ok_false_terminal_witness :
    sendPayload (fun _ => HttpResult.jsonBody [("ok", false)]) 5 =
      { sleepsMs := [], requests := 1, result := some .sendFailed } :=
  sendPayload_ok_false_terminal (fun _ => HttpResult.jsonBody [("ok", false)]) 5
    (by decide) rfl

/-- C3 counterexample: the claim says a decodable response body lacking the
`ok` field — such as the empty object `{}` — makes `sendPayload` return
success.  It does not: `json.Unmarshal` leaves `Ok` at its zero value
`false`, and the code returns the terminal `ErrSendFailed`. -/
theorem sendPayload_empty_object_not_success :
    (sendPayload (fun _ => HttpResult.jsonBody []) 5).result = some .sendFailed ∧
      (sendPayload (fun _ => HttpResult.jsonBody []) 5).result ≠ none := by
  decide

/-- C3 (amended): for every attempt of `sendPayload` (reached after a prefix
of retryable failures), a response body that decodes successfully is treated
as success exactly when the decoded acknowledgement is `true`; a decoded
object in which the `ok` field is absent decodes to the zero value `false`
and yields the terminal `ErrSendFailed`, like an explicit `false`. -/
theorem sendPayload_decoded_semantics (responses : Nat → HttpResult)
    (fields : List (String × Bool)) (n k : Nat) (hk : k < n)
    (hprev : ∀ j, j < k → (responses j).retryable = true)
    (hresp : responses k = .jsonBody fields) :
    (sendPayload responses n).result =
      if checkResponseOk fields then none else some .sendFailed :=
  sendPayloadAux_first_decoded responses fields n 0 k []
    (Nat.zero_le k) (by omega) (fun j _ hj2 => hprev j hj2) hresp

theorem sendPayload_decoded_semantics_witness :
    (sendPayload
        (fun j => if j = 0 then HttpResult.netErr else HttpResult.jsonBody []) 5).result
      = some O11yError.sendFailed := by
  have h := sendPayload_decoded_semantics
    (fun j => if j = 0 then HttpResult.netErr else HttpResult.jsonBody [])
    [] 5 1 (by omega)
    (fun j hj => by
      have : j = 0 := by omega
      subst this
      rfl)
    rfl
  simpa [checkResponseOk] using h

/-- C7: no sleep precedes the first attempt; the sleep before retry attempt
`i` (for `i = 1, 2, ...`) is exactly `250ms * 2^min(i,6)`, hence never more
than `250ms * 64`; a run in which every attempt fails retryably performs
exactly the configured number of attempts; and `WithNumRetries` clamps the
configured count into `[1, 10]`. -/
theorem sendPayload_backoff_spec (n : Nat) (responses : Nat → HttpResult)
    (hall : ∀ j, j < n → (responses j).retryable = true) (m : Int) :
    (sendPayload responses n).sleepsMs = (List.range' 1 (n - 1)).map retrySleepMs ∧
    (∀ i, 1 ≤ i → i < n →
      (sendPayload responses n).sleepsMs[i - 1]? = some (250 * 2 ^ min i 6)) ∧
    (∀ s ∈ (sendPayload responses n).sleepsMs, s ≤ 250 * 64) ∧
    (sendPayload responses n).requests = n ∧
    1 ≤ withNumRetries m ∧ withNumRetries m ≤ 10 := by
  rw [sendPayload_all_retryable responses n hall]
  refine ⟨rfl, ?_, ?_, rfl, ?_, ?_⟩
  · intro i hi1 hin
    rw [List.getElem?_map, List.getElem?_range' 1 1 (by omega)]
    simp only [Option.map_some']
    congr 1
    have : 1 + 1 * (i - 1) = i := by omega
    rw [this]
    rfl
  · intro s hs
    simp only [List.mem_map] at hs
    obtain ⟨j, _, rfl⟩ := hs
    show SleepQuantaMs * 2 ^ (min j MaxSleepRetries) ≤ 250 * 64
    have h2 : 2 ^ (min j MaxSleepRetries) ≤ 2 ^ 6 :=
      Nat.pow_le_pow_right (by omega) (by unfold MaxSleepRetries; omega)
    calc SleepQuantaMs * 2 ^ (min j MaxSleepRetries)
        ≤ SleepQuantaMs * 2 ^ 6 := Nat.mul_le_mul_left _ h2
      _ = 250 * 64 := rfl
  · simp only [withNumRetries, MaxNumRetries]
    split <;> split <;> omega
  · simp only [withNumRetries, MaxNumRetries]
    split <;> split <;> omega

theorem sendPayload_backoff_spec_witness :
    (sendPayload (fun _ => HttpResult.netErr) 8).sleepsMs[6]? = some (250 * 2 ^ min 7 6) ∧
    (sendPayload (fun _ => HttpResult.netErr) 8).requests = 8 ∧
    1 ≤ withNumRetries 42 ∧ withNumRetries 42 ≤ 10 := by
  have h := sendPayload_backoff_spec 8 (fun _ => HttpResult.netErr)
    (fun j _ => rfl) 42
  exact ⟨h.2.1 7 (by omega) (by omega), h.2.2.2.1, h.2.2.2.2.1, h.2.2.2.2.2⟩

/-! ## Lemmas about the client handle -/

/-- While there is room for all of them, enqueues succeed one after the
other: each returns nil and appends its value, and the producer-side fields
that `SendJSON` consults are untouched. -/
theorem sendAll_fits (v : Int) :
    ∀ (ds : List Nat) (c : ClientState), v ≤ c.verbosity → c.allowWrite = true →
      c.queue.length + ds.length ≤ c.queueCap →
      (sendAll c v ds).1.queue = c.queue ++ ds ∧
      (sendAll c v ds).1.verbosity = c.verbosity ∧
      (sendAll c v ds).1.allowWrite = c.allowWrite ∧
      (sendAll c v ds).1.queueCap = c.queueCap ∧
      (sendAll c v ds).2 = ds.map (fun _ => none) := by
  intro ds
  induction ds with
  | nil => intro c _ _ _; simp [sendAll]
  | cons d ds ih =>
    intro c hv hw hroom
    have hstep : sendJSON c v d = ({ c with queue := c.queue ++ [d], busy := false }, none) := by
      unfold sendJSON
      rw [if_neg (by omega), if_neg (by simp [hw]), if_pos (by simp at hroom ⊢; omega)]
    have ih' := ih { c with queue := c.queue ++ [d], busy := false }
      (by simpa using hv) (by simpa using hw)
      (by simp at hroom ⊢; omega)
    simp only [sendAll, hstep] at *
    refine ⟨?_, ih'.2.1, ih'.2.2.1, ih'.2.2.2.1, ?_⟩
    · rw [ih'.1]; simp
    · rw [ih'.2.2.2.2]; simp

/-! ## Claim about the client handle (C6) -/

/-- C6: `SendJSON` is a straight-line function of the producer state — it
never blocks.  For a call that passes the verbosity filter: if draining has
begun (`allowWrite` cleared by `preClose`) it returns `ErrClientClosed`; if
the backlog queue is full and draining has not begun it returns
`ErrClientBacklogged` and enqueues nothing; otherwise it enqueues the value
and returns nil.  In particular, starting from an empty queue of capacity
`K`, `K` enqueues all succeed and the `(K+1)`-th returns
`ErrClientBacklogged`. -/
theorem sendJSON_never_blocks (c : ClientState) (v : Int) (d : Nat)
    (hv : v ≤ c.verbosity) :
    (c.allowWrite = false → sendJSON c v d = (c, some .clientClosed)) ∧
    (c.allowWrite = true → c.queueCap ≤ c.queue.length →
      (sendJSON c v d).2 = some .clientBacklogged ∧
      (sendJSON c v d).1.queue = c.queue) ∧
    (c.allowWrite = true → c.queue.length < c.queueCap →
      sendJSON c v d = ({ c with queue := c.queue ++ [d], busy := false }, none)) ∧
    (∀ ds : List Nat, c.allowWrite = true → c.queue = [] → c.queueCap = ds.length →
      (sendAll c v ds).2 = ds.map (fun _ => none) ∧
      (sendJSON (sendAll c v ds).1 v d).2 = some .clientBacklogged) := by
  refine ⟨?_, ?_, ?_, ?_⟩
  · intro hw
    unfold sendJSON
    rw [if_neg (by omega), if_pos (by simp [hw])]
  · intro hw hfull
    unfold sendJSON
    rw [if_neg (by omega), if_neg (by simp [hw]), if_neg (by omega)]
    split <;> simp
  · intro hw hroom
    unfold sendJSON
    rw [if_neg (by omega), if_neg (by simp [hw]), if_pos hroom]
  · intro ds hw hq hcap
    have hfits := sendAll_fits v ds c hv hw (by simp [hq, hcap])
    refine ⟨hfits.2.2.2.2, ?_⟩
    unfold sendJSON
    rw [if_neg (by rw [hfits.2.1]; omega), if_neg (by simp [hfits.2.2.1, hw]),
      if_neg (by rw [hfits.1, hfits.2.2.2.1, hq, hcap]; simp)]
    split <;> simp

theorem sendJSON_never_blocks_witness :
    (sendJSON ⟨5, false, false, [], 4⟩ 3 7 = (⟨5, false, false, [], 4⟩, some .clientClosed)) ∧
    ((sendAll ⟨5, true, false, [], 3⟩ 3 [1, 2, 3]).2 = [none, none, none] ∧
      (sendJSON (sendAll ⟨5, true, false, [], 3⟩ 3 [1, 2, 3]).1 3 7).2
        = some .clientBacklogged) := by
  refine ⟨(sendJSON_never_blocks ⟨5, false, false, [], 4⟩ 3 7 (by decide)).1 rfl, ?_⟩
  have h := (sendJSON_never_blocks ⟨5, true, false, [], 3⟩ 3 7 (by decide)).2.2.2
    [1, 2, 3] rfl rfl rfl
  exact ⟨h.1, h.2⟩

/-! ## Lemmas about the dispatcher's warn/substitute path -/

/-- The typenames of the `BadType` placeholder records in the buffer. -/
def placeholders (c : DispState) : List String :=
  c.records.filterMap fun r =>
    match r with
    | .badType t => some t
    | .data _ => none

theorem writeAll_warn_invariant :
    ∀ (es : List EventVal) (c : DispState),
      c.warnedTypes = c.warnings → c.warnings.Nodup →
      placeholders c = c.warnings →
      (writeAll c es).warnedTypes = (writeAll c es).warnings ∧
      (writeAll c es).warnings.Nodup ∧
      placeholders (writeAll c es) = (writeAll c es).warnings ∧
      (∀ t, t ∈ (writeAll c es).warnings ↔
        t ∈ c.warnings ∨ ∃ e ∈ es, e.marshalable = false ∧ e.typename = t) := by
  intro es
  induction es with
  | nil =>
    intro c h1 h2 h3
    exact ⟨h1, h2, h3, fun t => by simp [writeAll]⟩
  | cons e es ih =>
    intro c h1 h2 h3
    have hstep : writeAll c (e :: es) = writeAll (writeOne c e) es := rfl
    by_cases hm : e.marshalable
    · have hw : writeOne c e = { c with records := c.records ++ [.data e.typename] } := by
        unfold writeOne
        rw [if_pos hm]
      have hp : placeholders { c with records := c.records ++ [.data e.typename] }
          = placeholders c := by
        unfold placeholders
        simp
      have ih' := ih { c with records := c.records ++ [.data e.typename] }
        h1 h2 (hp.trans h3)
      rw [hstep, hw]
      refine ⟨ih'.1, ih'.2.1, ih'.2.2.1, fun t => ?_⟩
      rw [ih'.2.2.2 t]
      simp [hm]
    · have hm' : e.marshalable = false := by simpa using hm
      by_cases hmem : e.typename ∈ c.warnedTypes
      · have hw : writeOne c e = c := by
          unfold writeOne warnError
          rw [if_neg (by simp [hm']), if_pos hmem]
        have ih' := ih c h1 h2 h3
        rw [hstep, hw]
        refine ⟨ih'.1, ih'.2.1, ih'.2.2.1, fun t => ?_⟩
        rw [ih'.2.2.2 t]
        constructor
        · rintro (ht | ⟨x, hx, hxm, hxt⟩)
          · exact Or.inl ht
          · exact Or.inr ⟨x, List.mem_cons_of_mem _ hx, hxm, hxt⟩
        · rintro (ht | ⟨x, hx, hxm, hxt⟩)
          · exact Or.inl ht
          · rcases List.mem_cons.mp hx with rfl | hx
            · exact Or.inl (hxt ▸ h1 ▸ hmem)
            · exact Or.inr ⟨x, hx, hxm, hxt⟩
      · have hw : writeOne c e =
            { warnedTypes := c.warnedTypes ++ [e.typename]
              records := c.records ++ [.badType e.typename]
              warnings := c.warnings ++ [e.typename] } := by
          unfold writeOne warnError
          rw [if_neg (by simp [hm']), if_neg hmem]
        have hinv1 : c.warnedTypes ++ [e.typename] = c.warnings ++ [e.typename] := by
          rw [h1]
        have hinv2 : (c.warnings ++ [e.typename]).Nodup := by
          rw [List.nodup_append]
          exact ⟨h2, List.nodup_singleton _, by
            intro a ha hb
            simp at hb
            subst hb
            exact hmem (h1 ▸ ha)⟩
        have hinv3 : placeholders
            { warnedTypes := c.warnedTypes ++ [e.typename]
              records := c.records ++ [.badType e.typename]
              warnings := c.warnings ++ [e.typename] } = c.warnings ++ [e.typename] := by
          unfold placeholders at h3 ⊢
          simp only [List.filterMap_append]
          rw [h3]
          rfl
        have ih' := ih _ hinv1 hinv2 hinv3
        rw [hstep, hw]
        refine ⟨ih'.1, ih'.2.1, ih'.2.2.1, fun t => ?_⟩
        rw [ih'.2.2.2 t]
        simp only [List.mem_append, List.mem_cons, List.not_mem_nil, or_false]
        constructor
        · rintro ((ht | rfl) | ⟨x, hx, hxm, hxt⟩)
          · exact Or.inl ht
          · exact Or.inr ⟨e, Or.inl rfl, hm', rfl⟩
          · exact Or.inr ⟨x, Or.inr hx, hxm, hxt⟩
        · rintro (ht | ⟨x, rfl | hx, hxm, hxt⟩)
          · exact Or.inl (Or.inl ht)
          · exact Or.inl (Or.inr hxt.symm)
          · exact Or.inr ⟨x, hx, hxm, hxt⟩

/-! ## Claim about the warn/substitute path (C9) -/

/-- C9 counterexample: the claim says every serialization-failing event
still produces a (placeholder) record.  Two consecutive failing events of
the same unmarshalable type (`chan int`) yield only one buffered record:
the substitution, like the warning, happens only inside the
first-time-per-type branch of `warnError`. -/
theorem writeOne_second_failure_drops_record :
    (writeAll ⟨[], [], []⟩ [⟨"chan int", false⟩, ⟨"chan int", false⟩]).records
      = [.badType "chan int"] ∧
    (writeAll ⟨[], [], []⟩ [⟨"chan int", false⟩, ⟨"chan int", false⟩]).records.length
      ≠ 2 := by
  constructor
  · rfl
  · decide

/-- C9 (amended): a warning is logged once per distinct failing value type
(deduplicated by type, not by value), and a placeholder envelope is
substituted into the buffer only together with that first warning; later
failing events of an already-warned type produce no buffer record at all.
Consequently, over any run the warnings are exactly the distinct failing
types and the placeholder records match them one for one. -/
theorem writeAll_warn_once_per_type (es : List EventVal) :
    (writeAll ⟨[], [], []⟩ es).warnings.Nodup ∧
    placeholders (writeAll ⟨[], [], []⟩ es) = (writeAll ⟨[], [], []⟩ es).warnings ∧
    (∀ t, t ∈ (writeAll ⟨[], [], []⟩ es).warnings ↔
      ∃ e ∈ es, e.marshalable = false ∧ e.typename = t) := by
  have h := writeAll_warn_invariant es ⟨[], [], []⟩ rfl List.nodup_nil rfl
  refine ⟨h.2.1, h.2.2.1, fun t => ?_⟩
  rw [h.2.2.2 t]
  simp

/-! ## Lemmas about the flush loop -/

/-- The byte buffer after encoding a sequence of envelopes in enqueue order:
`json.Encoder.Encode` appends each envelope's serialized bytes (one JSON
object plus the trailing newline) to `c.buffer`. -/
def bufferBytes (envs : List (List Nat)) : List Nat := envs.flatten

theorem cutPoint_append (data : List Nat) (maxSize : Int) :
    (cutPoint data maxSize).1 ++ (cutPoint data maxSize).2 = data := by
  unfold cutPoint cutPointAux
  split
  · simp
  · split
    · split
      · simp
      · split
        · simp
        · simp
    · simp

theorem cutPoint_fst_ne_nil (data : List Nat) (maxSize : Int) (h : data ≠ []) :
    (cutPoint data maxSize).1 ≠ [] := by
  unfold cutPoint cutPointAux
  split
  · simpa using h
  · split
    · split
      · simp only
        rw [Ne, List.take_eq_nil_iff]
        simp [h]
      · split
        · simp only
          rw [Ne, List.take_eq_nil_iff]
          simp [h]
        · simpa using h
    · simpa using h

theorem flushPieces_flatten (maxSize : Int) (data : List Nat) :
    (flushPieces maxSize data).flatten = data := by
  have H : ∀ (n : Nat) (d : List Nat), d.length ≤ n →
      (flushPieces maxSize d).flatten = d := by
    intro n
    induction n with
    | zero =>
      intro d hd
      have : d = [] := List.length_eq_zero.mp (Nat.le_zero.mp hd)
      subst this
      rw [flushPieces]
      simp
    | succ n ih =>
      intro d hd
      rw [flushPieces]
      by_cases hnil : d = []
      · simp [hnil]
      · rw [dif_neg hnil]
        split
        · rw [List.flatten_cons,
            ih (cutPoint d maxSize).2
              (by have := cutPoint_snd_length_lt d maxSize hnil; omega),
            cutPoint_append]
        · simp
  exact H data.length data (Nat.le_refl _)

/-! ## Claims about the flush loop (C2, C10) -/

/-- C2: when the whole buffer content fits in `maxSize`, `flushBuffer`
hands it to `sendPayload` as exactly one batch, the concatenation of the
encoded envelopes in enqueue order; an empty buffer triggers no
`sendPayload` call at all. -/
theorem flushBuffer_single_batch (maxSize : Int) (envs : List (List Nat))
    (hne : bufferBytes envs ≠ [])
    (hsz : ((bufferBytes envs).length : Int) ≤ maxSize) :
    flushPieces maxSize (bufferBytes envs) = [bufferBytes envs] ∧
    flushPieces maxSize [] = [] := by
  constructor
  · rw [flushPieces, dif_neg hne, if_neg (by omega)]
  · rw [flushPieces]
    simp

theorem flushBuffer_single_batch_witness :
    flushPieces 4096 (bufferBytes [[65, 10], [66, 66, 10]]) = [[65, 10, 66, 66, 10]] ∧
    flushPieces 4096 [] = [] := by
  have h := flushBuffer_single_batch 4096 [[65, 10], [66, 66, 10]]
    (by decide) (by decide)
  exact ⟨h.1, h.2⟩

/-- C10: the splitting loop of `flushBuffer` terminates on every buffer
content and sends every byte exactly once: the concatenation of the sent
pieces is the original buffer.  At each iteration on a non-empty remainder,
either it fits (`length ≤ maxSize`) and is sent whole, or `cutPoint`
returns a non-empty head with a strictly shorter tail (so the remaining
byte count strictly decreases), the no-cut case being the one where the
head is the whole remainder and the tail is empty. -/
theorem flushBuffer_terminates (maxSize : Int) (data : List Nat) :
    (flushPieces maxSize data).flatten = data ∧
    (data ≠ [] →
      ((data.length : Int) ≤ maxSize ∧ flushPieces maxSize data = [data]) ∨
      ((cutPoint data maxSize).1 ≠ [] ∧
        (cutPoint data maxSize).2.length < data.length ∧
        ((cutPoint data maxSize).1 = data → (cutPoint data maxSize).2 = []))) := by
  refine ⟨flushPieces_flatten maxSize data, fun hne => ?_⟩
  by_cases hfit : (data.length : Int) ≤ maxSize
  · left
    refine ⟨hfit, ?_⟩
    rw [flushPieces, dif_neg hne, if_neg (by omega)]
  · right
    refine ⟨cutPoint_fst_ne_nil data maxSize hne,
      cutPoint_snd_length_lt data maxSize hne, fun hhead => ?_⟩
    have happ := cutPoint_append data maxSize
    rw [hhead] at happ
    have := congrArg List.length happ
    simp at this
    simpa [List.length_eq_zero] using this

theorem flushBuffer_terminates_witness :
    (flushPieces 32 ((List.range 40).map fun i => if i = 20 then 10 else 65)).flatten
      = ((List.range 40).map fun i => if i = 20 then 10 else 65) ∧
    (cutPoint ((List.range 40).map fun i => if i = 20 then 10 else 65) 32).2.length
      < ((List.range 40).map fun i => if i = 20 then 10 else 65).length := by
  have h := flushBuffer_terminates 32 ((List.range 40).map fun i => if i = 20 then 10 else 65)
  refine ⟨h.1, ?_⟩
  rcases h.2 (by decide) with ⟨hfit, _⟩ | ⟨_, hlt, _⟩
  · exact absurd hfit (by decide)
  · exact hlt

/-! ## Lemmas about cutPoint's search windows -/

theorem mem_backIdx (m i : Nat) : i ∈ backIdx m ↔ m / 2 < i ∧ i ≤ m := by
  unfold backIdx
  rw [List.mem_reverse, List.mem_range'_1]
  have : m / 2 ≤ m := Nat.div_le_self m 2
  omega

theorem mem_fwdIdx (m ld i : Nat) (h : m ≤ ld) :
    i ∈ fwdIdx m ld ↔ m ≤ i ∧ i < ld := by
  unfold fwdIdx
  rw [List.mem_range'_1]
  omega

theorem isNL_iff (data : List Nat) (i : Nat) :
    isNL data i = true ↔ data.getD i 0 = 10 := by
  simp [isNL]

theorem getLast?_take_nl (data : List Nat) (i : Nat) (hi : i < data.length)
    (hnl : data.getD i 0 = 10) : (data.take (i + 1)).getLast? = some 10 := by
  have hidx : data[i]? = some 10 := by
    rw [List.getD_eq_getElem?_getD, List.getElem?_eq_getElem hi] at hnl
    rw [List.getElem?_eq_getElem hi]
    simpa using hnl
  rw [List.getLast?_eq_getElem?]
  have hlen : (data.take (i + 1)).length = i + 1 := by
    rw [List.length_take]
    omega
  rw [hlen]
  simpa [List.getElem?_take_of_lt (Nat.lt_succ_self i), Nat.add_sub_cancel] using hidx

/-! ## Claim about cutPoint (C4) -/

/-- C4: for every byte sequence and every `maxSize`, `cutPoint` returns
`(head, tail)` with `head ++ tail = data`; when the data is longer than
`maxSize` and `maxSize` is at least the sanity floor 32, the head ends in a
newline whenever some newline lies in the search window (backward over
`(maxSize/2, maxSize]`, forward over `[maxSize, len)`); and when no newline
lies in the window, or `maxSize` is below the floor, the head is the whole
input and the tail is empty. -/
theorem cutPoint_line_boundary (data : List Nat) (maxSize : Int) :
    (cutPoint data maxSize).1 ++ (cutPoint data maxSize).2 = data ∧
    (32 ≤ maxSize → maxSize.toNat < data.length →
      (∃ i, inWindow data maxSize.toNat i ∧ data.getD i 0 = 10) →
      (cutPoint data maxSize).1.getLast? = some 10) ∧
    ((maxSize < 32 ∨ ∀ i, inWindow data maxSize.toNat i → data.getD i 0 ≠ 10) →
      (cutPoint data maxSize).1 = data ∧ (cutPoint data maxSize).2 = []) := by
  refine ⟨cutPoint_append data maxSize, ?_, ?_⟩
  · intro h32 hlen hex
    have hne : data ≠ [] := by
      intro h
      rw [h] at hlen
      simp at hlen
    unfold cutPoint
    rw [if_neg (not_or.mpr ⟨by omega, hne⟩)]
    unfold cutPointAux
    rw [if_pos hlen]
    cases hb : (backIdx maxSize.toNat).find? (isNL data) with
    | some i =>
      have hnl : data.getD i 0 = 10 := (isNL_iff data i).mp (List.find?_some hb)
      have hmem := (mem_backIdx _ i).mp (List.mem_of_find?_eq_some hb)
      exact getLast?_take_nl data i (by omega) hnl
    | none =>
      cases hf : (fwdIdx maxSize.toNat data.length).find? (isNL data) with
      | some i =>
        have hnl : data.getD i 0 = 10 := (isNL_iff data i).mp (List.find?_some hf)
        have hmem := (mem_fwdIdx _ _ i (by omega)).mp (List.mem_of_find?_eq_some hf)
        exact getLast?_take_nl data i (by omega) hnl
      | none =>
        exfalso
        obtain ⟨i, hw, hnl⟩ := hex
        rcases hw with ⟨h1, h2, h3⟩ | ⟨h1, h2⟩
        · exact (List.find?_eq_none.mp hb i ((mem_backIdx _ i).mpr ⟨h1, h2⟩))
            ((isNL_iff data i).mpr hnl)
        · exact (List.find?_eq_none.mp hf i ((mem_fwdIdx _ _ i (by omega)).mpr ⟨h1, h2⟩))
            ((isNL_iff data i).mpr hnl)
  · intro hcase
    rcases hcase with h32 | hno
    · unfold cutPoint
      rw [if_pos (Or.inl h32)]
      exact ⟨rfl, rfl⟩
    · by_cases hnil : data = []
      · unfold cutPoint
        rw [if_pos (Or.inr hnil)]
        exact ⟨rfl, rfl⟩
      · unfold cutPoint
        by_cases h32 : maxSize < 32
        · rw [if_pos (Or.inl h32)]
          exact ⟨rfl, rfl⟩
        · rw [if_neg (not_or.mpr ⟨h32, hnil⟩)]
          unfold cutPointAux
          by_cases hlen : data.length > maxSize.toNat
          · rw [if_pos hlen]
            have hb : (backIdx maxSize.toNat).find? (isNL data) = none := by
              rw [List.find?_eq_none]
              intro i hi
              have hmem := (mem_backIdx _ i).mp hi
              have : data.getD i 0 ≠ 10 :=
                hno i (Or.inl ⟨hmem.1, hmem.2, by omega⟩)
              simpa [isNL_iff] using this
            have hf : (fwdIdx maxSize.toNat data.length).find? (isNL data) = none := by
              rw [List.find?_eq_none]
              intro i hi
              have hmem := (mem_fwdIdx _ _ i (by omega)).mp hi
              have : data.getD i 0 ≠ 10 := hno i (Or.inr ⟨hmem.1, hmem.2⟩)
              simpa [isNL_iff] using this
            rw [hb, hf]
            exact ⟨rfl, rfl⟩
          · rw [if_neg hlen]
            exact ⟨rfl, rfl⟩

theorem cutPoint_line_boundary_witness :
    (cutPoint ((List.range 40).map fun i => if i = 20 then 10 else 65) 32).1.getLast?
      = some 10 ∧
    (cutPoint ((List.range 40).map fun i => if i = 20 then 10 else 65) 32).1 ++
      (cutPoint ((List.range 40).map fun i => if i = 20 then 10 else 65) 32).2
      = ((List.range 40).map fun i => if i = 20 then 10 else 65) := by
  have h := cutPoint_line_boundary ((List.range 40).map fun i => if i = 20 then 10 else 65) 32
  exact ⟨h.2.1 (by decide) (by decide) ⟨20, by decide, by decide⟩, h.1⟩

/-! ## Lemmas about the fake clock -/

theorem fakeSleepAux_eq_done (sleepUntil : Nat) (st : FakeState)
    (trace : List (Nat × Nat)) (h : earliestIdx st.tickers = none) :
    fakeSleepAux sleepUntil st trace = ({ st with now := sleepUntil }, trace) := by
  rw [fakeSleepAux]
  split
  · rfl
  · rename_i ju heq
    exact Option.noConfusion (h.symm.trans heq)

theorem fakeSleepAux_eq_fire (sleepUntil : Nat) (st : FakeState)
    (trace : List (Nat × Nat)) (ju : Nat × FTicker)
    (h : earliestIdx st.tickers = some ju) (hle : ju.2.next ≤ sleepUntil) :
    fakeSleepAux sleepUntil st trace =
      fakeSleepAux sleepUntil
        { now := ju.2.next
          tickers := st.tickers.set ju.1 { ju.2 with next := ju.2.next + ju.2.period } }
        (trace ++ [(ju.2.id, ju.2.next)]) := by
  rw [fakeSleepAux]
  split
  · rename_i heq
    exact Option.noConfusion (heq.symm.trans h)
  · rename_i ju2 heq
    rw [h] at heq
    injection heq with h2
    subst h2
    rw [dif_pos hle]

theorem fakeSleepAux_eq_stop (sleepUntil : Nat) (st : FakeState)
    (trace : List (Nat × Nat)) (ju : Nat × FTicker)
    (h : earliestIdx st.tickers = some ju) (hle : ¬ ju.2.next ≤ sleepUntil) :
    fakeSleepAux sleepUntil st trace = ({ st with now := sleepUntil }, trace) := by
  rw [fakeSleepAux]
  split
  · rfl
  · rename_i ju2 heq
    rw [h] at heq
    injection heq with h2
    subst h2
    rw [dif_neg hle]


/-- The invariants of the sleep loop: the final time is the sleep target,
the tick trace grows only with due times that dominate every earlier trace
entry and every pending next-due time stays at or above each trace entry,
so the trace is non-decreasing in due time and bounded by the target. -/
theorem fakeSleepAux_spec (sleepUntil : Nat) :
    ∀ (fuel : Nat) (st : FakeState) (trace : List (Nat × Nat)),
      sleepMeasure sleepUntil st.tickers ≤ fuel →
      (∀ x ∈ trace, ∀ t ∈ st.tickers, x.2 ≤ t.next) →
      List.Pairwise (fun a b : Nat × Nat => a.2 ≤ b.2) trace →
      (∀ x ∈ trace, x.2 ≤ sleepUntil) →
      (fakeSleepAux sleepUntil st trace).1.now = sleepUntil ∧
      List.Pairwise (fun a b : Nat × Nat => a.2 ≤ b.2)
        (fakeSleepAux sleepUntil st trace).2 ∧
      (∀ x ∈ (fakeSleepAux sleepUntil st trace).2, x.2 ≤ sleepUntil) := by
  intro fuel
  induction fuel with
  | zero =>
    intro st trace hfuel hdom hsort hbound
    cases h : earliestIdx st.tickers with
    | none =>
      rw [fakeSleepAux_eq_done sleepUntil st trace h]
      exact ⟨rfl, hsort, hbound⟩
    | some ju =>
      by_cases hle : ju.2.next ≤ sleepUntil
      · exfalso
        have := sleepMeasure_fire_lt sleepUntil st.tickers ju.1 ju.2 h hle
        omega
      · rw [fakeSleepAux_eq_stop sleepUntil st trace ju h hle]
        exact ⟨rfl, hsort, hbound⟩
  | succ fuel ih =>
    intro st trace hfuel hdom hsort hbound
    cases h : earliestIdx st.tickers with
    | none =>
      rw [fakeSleepAux_eq_done sleepUntil st trace h]
      exact ⟨rfl, hsort, hbound⟩
    | some ju =>
      by_cases hle : ju.2.next ≤ sleepUntil
      · rw [fakeSleepAux_eq_fire sleepUntil st trace ju h hle]
        have humem : ju.2 ∈ st.tickers :=
          List.getElem?_mem (earliestIdx_getElem st.tickers ju.1 ju.2 h)
        have hmin := earliestIdx_min st.tickers ju.1 ju.2 h
        refine ih _ _ ?_ ?_ ?_ ?_
        · have hlt := sleepMeasure_fire_lt sleepUntil st.tickers ju.1 ju.2 h hle
          exact Nat.lt_succ_iff.mp (Nat.lt_of_lt_of_le hlt hfuel)
        · intro x hx t ht
          rcases List.mem_append.mp hx with hx | hx
          · rcases List.mem_or_eq_of_mem_set ht with ht | rfl
            · exact hdom x hx t ht
            · calc x.2 ≤ ju.2.next := hdom x hx ju.2 humem
                _ ≤ ju.2.next + ju.2.period := Nat.le_add_right _ _
          · have hx2 : x.2 = ju.2.next := by
              simp at hx
              rw [hx]
            rcases List.mem_or_eq_of_mem_set ht with ht | rfl
            · exact hx2 ▸ hmin t ht
            · rw [hx2]
              exact Nat.le_add_right _ _
        · rw [List.pairwise_append]
          refine ⟨hsort, List.pairwise_singleton _ _, ?_⟩
          intro x hx y hy
          simp at hy
          rw [hy]
          exact hdom x hx ju.2 humem
        · intro x hx
          rcases List.mem_append.mp hx with hx | hx
          · exact hbound x hx
          · simp at hx
            rw [hx]
            exact hle
      · rw [fakeSleepAux_eq_stop sleepUntil st trace ju h hle]
        exact ⟨rfl, hsort, hbound⟩

/-! ## Claim about the fake clock (C8) -/

/-- C8: `FakeClock.Sleep(d)` advances simulated time stepwise to exactly
`start + d`; at each step the registered ticker with the smallest next-due
time fires only if due at or before the sleep target, so the delivered
ticks carry non-decreasing due times — tickers never fire out of due-time
order — and every delivered due time is at most the sleep target. -/
theorem fakeClock_sleep_ordered (st : FakeState) (d : Nat) :
    (fakeSleep st d).1.now = st.now + d ∧
    List.Pairwise (fun a b : Nat × Nat => a.2 ≤ b.2) (fakeSleep st d).2 ∧
    (∀ x ∈ (fakeSleep st d).2, x.2 ≤ st.now + d) :=
  fakeSleepAux_spec (st.now + d) (sleepMeasure (st.now + d) st.tickers) st []
    (Nat.le_refl _) (by intro x hx; cases hx) List.Pairwise.nil
    (by intro x hx; cases hx)

end O11y
